import Mathlib

/-!
Shallow embedding of the test discovery / execution core of the
`vscode-swift` extension (sources under `src/TestExplorer/`), together
with proofs of the specified properties.

Numbers that are JavaScript `number`s are modelled as `ℚ` (the claims
under scrutiny involve only exact arithmetic); file system paths are
modelled as lists of path segments; `Map`s keyed by integers are
modelled as association lists with first-match lookup (a `set` prepends,
which gives JavaScript's overwrite semantics).
-/

namespace VSCodeSwift

/-- A file system path, as a list of path segments (what `uri.fsPath`
denotes, already normalized). -/
abbrev FsPath := List String

/-- `String.prototype.endsWith`, computed on the character list (so
that concrete instances evaluate by `decide`). -/
def strEndsWith (s suf : String) : Bool :=
  decide (s.data.drop (s.data.length - suf.data.length) = suf.data)

/-- `String.prototype.startsWith`, computed on the character list. -/
def strStartsWith (s pre : String) : Bool :=
  decide (s.data.take pre.data.length = pre.data)

/-- Drop the last `n` characters of a string. -/
def strDropRight (s : String) (n : Nat) : String :=
  ⟨s.data.take (s.data.length - n)⟩

/-- Drop the first `n` characters of a string. -/
def strDrop (s : String) (n : Nat) : String :=
  ⟨s.data.drop n⟩

/-- Model of `vscode.Range` (start/end line and character). -/
structure VRange where
  startLine : Nat
  startChar : Nat
  endLine : Nat
  endChar : Nat
deriving DecidableEq, Repr

/-- Model of `vscode.Location`: a document uri plus a range. -/
structure VLocation where
  uri : FsPath
  range : VRange
deriving DecidableEq, Repr

/-! ## `TestRunnerTestRunState` (src/TestExplorer/TestRunner.ts)

`started` records the (optional) start time in the `startTimes` map and
`completed` computes the reported duration either from an explicit
`duration` or from a `timestamp` paired with the recorded start time.
-/

/-- The `timing` argument of `TestRunnerTestRunState.completed`:
either `{ duration: number }` or `{ timestamp: number }`. -/
inductive TimingM where
  | duration (d : ℚ)
  | timestamp (t : ℚ)
deriving DecidableEq, Repr

/-- One event forwarded to the `TestRunProxy` by the run state. -/
inductive RunEvent where
  | started (index : Nat)
  | passed (index : Nat) (duration : ℚ)
  | failed (index : Nat) (duration : ℚ)
  | skipped (index : Nat)
deriving DecidableEq, Repr

/-- Model of the mutable fields of `TestRunnerTestRunState`.  `startTimes`
models `Map<number, number | undefined>`: `set` prepends an entry and
`get` takes the first match, so later `set`s shadow earlier ones. -/
structure RunStateModel where
  startTimes : List (Nat × Option ℚ)
  issues : List (Nat × List String)
  currentTestItem : Option Nat
  lastTestItem : Option Nat
  events : List RunEvent
deriving DecidableEq, Repr

/-- The empty run state (all maps empty, no cursor). -/
def RunStateModel.empty : RunStateModel :=
  { startTimes := [], issues := [], currentTestItem := none,
    lastTestItem := none, events := [] }

/-- `Map.get` for the `startTimes` map: absent keys and keys stored with
value `undefined` both read back as `undefined`, hence the `bind`. -/
def startTimeGet (m : List (Nat × Option ℚ)) (index : Nat) : Option ℚ :=
  (m.find? (fun p => p.1 = index)).bind (fun p => p.2)

/-- `TestRunnerTestRunState.started(index, startTime?)`. -/
def RunStateModel.started (st : RunStateModel) (index : Nat)
    (startTime : Option ℚ) : RunStateModel :=
  { st with
    events := st.events ++ [RunEvent.started index],
    currentTestItem := some index,
    startTimes := (index, startTime) :: st.startTimes }

/-- `TestRunnerTestRunState.recordIssue(index, message, location?)`
(locations dropped in the model; only presence of issues matters for
pass/fail dispatch). -/
def RunStateModel.recordIssue (st : RunStateModel) (index : Nat)
    (message : String) : RunStateModel :=
  let issueList := ((st.issues.find? (fun p => p.1 = index)).map (fun p => p.2)).getD []
  { st with issues := (index, issueList ++ [message]) :: st.issues }

/-- The `let duration` block of `TestRunnerTestRunState.completed`:
timestamp form requires a recorded start time and throws otherwise;
both forms scale by 1000. -/
def computeDuration (startTime : Option ℚ) (timing : TimingM) :
    Except String ℚ :=
  match timing with
  | TimingM.timestamp ts =>
    match startTime with
    | none => Except.error
        "Timestamp was provided on test completion, but there was no startTime set when the test was started."
    | some t0 => Except.ok ((ts - t0) * 1000)
  | TimingM.duration d => Except.ok (d * 1000)

/-- `TestRunnerTestRunState.completed(index, timing)`. -/
def RunStateModel.completed (st : RunStateModel) (index : Nat)
    (timing : TimingM) : Except String RunStateModel :=
  match computeDuration (startTimeGet st.startTimes index) timing with
  | Except.error e => Except.error e
  | Except.ok duration =>
    let issues := ((st.issues.find? (fun p => p.1 = index)).map (fun p => p.2)).getD []
    let ev := if issues.length > 0 then RunEvent.failed index duration
              else RunEvent.passed index duration
    Except.ok { st with
      events := st.events ++ [ev],
      lastTestItem := st.currentTestItem,
      currentTestItem := none }

/-- The duration a pass/fail event reports to the run proxy. -/
def RunEvent.durationOf : RunEvent → Option ℚ
  | RunEvent.passed _ d => some d
  | RunEvent.failed _ d => some d
  | _ => none

/-- The duration carried by the completion event that `completed`
appended, if it succeeded. -/
def completedDuration (r : Except String RunStateModel) : Option ℚ :=
  match r with
  | Except.error _ => none
  | Except.ok st => st.events.getLast?.bind RunEvent.durationOf

/-! ## `TestRunner.runHandler` (src/TestExplorer/TestRunner.ts)

The handler is a `try`/`catch` with an early `return` on build failure:

* coverage runs skip the build step entirely;
* a build exit code of `undefined` or `≠ 0` calls `end()` and returns,
  skipping the rest of the body (including the trailing `end()`);
* a throw anywhere in the body is caught, logged and appended, after
  which the trailing `end()` runs;
* on normal completion the trailing `end()` runs.

We model the handler as emitting the list of externally visible actions,
with the `try` body returning a control-flow tag.
-/

inductive TestKindM where
  | standard
  | parallel
  | coverage
deriving DecidableEq, Repr

/-- Outcome of the queued build task: it either resolves with an exit
code (possibly `undefined`) or throws. -/
inductive BuildOutcome where
  | completed (exitCode : Option Int)
  | threw
deriving DecidableEq, Repr

/-- Outcome of the run/debug session body (`runSession`/`debugSession`):
it returns normally, returns early due to cancellation, or throws. -/
inductive SessionOutcome where
  | completed
  | cancelled
  | threw
deriving DecidableEq, Repr

/-- Externally visible actions performed by `runHandler`. -/
inductive RunAction where
  | buildStep
  | session (debug : Bool)
  | logError
  | endRun
deriving DecidableEq, Repr

/-- Control flow out of the `try` body. -/
inductive TryFlow where
  | normal
  | earlyReturn
  | threw
deriving DecidableEq, Repr

/-- The `try` body of `runHandler`: optional build step (skipped for
coverage), early return (after calling `end()`) on build failure, then
the debug or run session. -/
def runHandlerTryBody (testKind : TestKindM) (shouldDebug : Bool)
    (build : BuildOutcome) (session : SessionOutcome) :
    List RunAction × TryFlow :=
  let sessionPart : List RunAction × TryFlow :=
    match session with
    | SessionOutcome.completed => ([RunAction.session shouldDebug], TryFlow.normal)
    | SessionOutcome.cancelled => ([RunAction.session shouldDebug], TryFlow.normal)
    | SessionOutcome.threw => ([RunAction.session shouldDebug], TryFlow.threw)
  if testKind ≠ TestKindM.coverage then
    match build with
    | BuildOutcome.threw => ([RunAction.buildStep], TryFlow.threw)
    | BuildOutcome.completed exitCode =>
      -- `if (exitCode === undefined || exitCode !== 0)`
      if exitCode = some 0 then
        (RunAction.buildStep :: sessionPart.1, sessionPart.2)
      else
        ([RunAction.buildStep, RunAction.endRun], TryFlow.earlyReturn)
  else sessionPart

/-- `TestRunner.runHandler`: the `try` body, the `catch` clause (log and
append the error), and the trailing `await this.testRun.end()` which an
early `return` skips. -/
def runHandler (testKind : TestKindM) (shouldDebug : Bool)
    (build : BuildOutcome) (session : SessionOutcome) : List RunAction :=
  let (acts, flow) := runHandlerTryBody testKind shouldDebug build session
  match flow with
  | TryFlow.earlyReturn => acts
  | TryFlow.threw => acts ++ [RunAction.logError, RunAction.endRun]
  | TryFlow.normal => acts ++ [RunAction.endRun]

/-- Does the exit code of the build step abort the run?  (Build runs
unless the kind is coverage; `undefined` and non-zero codes abort.) -/
def buildAborts (testKind : TestKindM) (build : BuildOutcome) : Bool :=
  testKind ≠ TestKindM.coverage &&
    (match build with
     | BuildOutcome.threw => true
     | BuildOutcome.completed exitCode => exitCode ≠ some 0)

/-- Is the action a session execution? -/
def RunAction.isSession : RunAction → Bool
  | RunAction.session _ => true
  | _ => false

/-! ## `TestRunner.runStandardSession` / `launchTests`
(src/TestExplorer/TestRunner.ts)

`runStandardSession` resolves when the spawned process closes with exit
code `0` or `undefined`, rejects with the exit code otherwise, and
rejects with the thrown error if the process failed to start.
`launchTests` catches the rejection and appends run-level error text
unless the rejected value is exactly `1`.
-/

/-- What the spawned test process did: threw an error before/while
running, or closed with an exit code (possibly `undefined`). -/
inductive ProcessOutcome where
  | error (message : String)
  | closed (code : Option Int)
deriving DecidableEq, Repr

/-- The value a failing `runStandardSession` promise rejects with:
either the error from `onDidThrowError` or the exit code. -/
inductive RejectReason where
  | thrownError (message : String)
  | exitCode (code : Int)
deriving DecidableEq, Repr

/-- `TestRunner.runStandardSession`: `!code` (i.e. `undefined` or `0`)
resolves; otherwise the promise rejects with the code; a spawn error
rejects with the error. -/
def runStandardSession (p : ProcessOutcome) : Except RejectReason Unit :=
  match p with
  | ProcessOutcome.error m => Except.error (RejectReason.thrownError m)
  | ProcessOutcome.closed none => Except.ok ()
  | ProcessOutcome.closed (some c) =>
    if c = 0 then Except.ok () else Except.error (RejectReason.exitCode c)

/-- The `error !== 1` comparison in `launchTests`' `catch`: only the
number `1` compares equal to `1`. -/
def rejectIsOne : RejectReason → Bool
  | RejectReason.exitCode c => c = 1
  | RejectReason.thrownError _ => false

/-- The run-level error output `launchTests` appends for a standard
session: nothing on success, nothing for the test-failure sentinel `1`,
and an `Error:` line otherwise. -/
def launchTestsStandardErrorOutput (p : ProcessOutcome) : List String :=
  match runStandardSession p with
  | Except.ok _ => []
  | Except.error r =>
    if rejectIsOne r then []
    else [match r with
          | RejectReason.thrownError m => "Error: " ++ m
          | RejectReason.exitCode c => "Error: " ++ toString c]

/-! ## Package model (`SwiftPackage`)

Only the interface consumed by the modelled files is embedded: the
target list (name, path, sources, type) with `getTargets` filtering by
type, and `getTarget`, the mapping from a file path to the target that
contains it, kept as an abstract field of the package (a collaborator
the discovery code calls). -/

/-- A Swift package target (`Target` in SwiftPackage.ts): the fields the
test explorer reads. -/
structure Target where
  name : String
  path : FsPath
  sources : List FsPath
  type : String
deriving DecidableEq, Repr

/-- Model of `SwiftPackage`: the targets plus the `getTarget(file)`
lookup (which target contains the given file path). -/
structure SwiftPackageModel where
  targets : List Target
  getTarget : FsPath → Option Target

/-- `SwiftPackage.getTargets(type)`: filter targets by type. -/
def SwiftPackageModel.getTargets (pkg : SwiftPackageModel) (type : String) :
    List Target :=
  pkg.targets.filter (fun t => t.type = type)

/-! ## `TestClass` / LSP test items -/

/-- `TestClass` (src/TestExplorer/TestDiscovery.ts): an `LSPTestItem`
with an optional location and `TestClass` children. -/
inductive TestClass where
  | mk (id : String) (label : String) (style : String) (disabled : Bool)
      (tags : List String) (location : Option VLocation)
      (children : List TestClass)

def TestClass.id : TestClass → String
  | TestClass.mk i _ _ _ _ _ _ => i

def TestClass.label : TestClass → String
  | TestClass.mk _ l _ _ _ _ _ => l

def TestClass.style : TestClass → String
  | TestClass.mk _ _ s _ _ _ _ => s

def TestClass.disabled : TestClass → Bool
  | TestClass.mk _ _ _ d _ _ _ => d

def TestClass.tags : TestClass → List String
  | TestClass.mk _ _ _ _ t _ _ => t

def TestClass.location : TestClass → Option VLocation
  | TestClass.mk _ _ _ _ _ l _ => l

def TestClass.children : TestClass → List TestClass
  | TestClass.mk _ _ _ _ _ _ c => c

/-- `LSPTestItem` (sourcekit-lsp extension): like `TestClass` but with a
mandatory protocol location. -/
inductive LSPItemM where
  | mk (id : String) (label : String) (style : String) (disabled : Bool)
      (tags : List String) (location : VLocation)
      (children : List LSPItemM)

def LSPItemM.id : LSPItemM → String
  | LSPItemM.mk i _ _ _ _ _ _ => i

def LSPItemM.style : LSPItemM → String
  | LSPItemM.mk _ _ s _ _ _ _ => s

def LSPItemM.location : LSPItemM → VLocation
  | LSPItemM.mk _ _ _ _ _ l _ => l

/-! ## `LSPTestDiscovery` (src/TestExplorer/LSPTestDiscovery.ts) -/

/-- `item.id.replace(/\(\)$/, "")`: drop one trailing `()` if present. -/
def stripTrailingParens (s : String) : String :=
  if strEndsWith s "()" then strDropRight s 2 else s

/-- `LSPTestDiscovery.transformId`: XCTest-style items get the enclosing
test target's name prefixed (when the location resolves to a test
target) and a trailing `()` stripped; other styles keep their id. -/
def transformId (pkg : SwiftPackageModel) (item : LSPItemM)
    (location : VLocation) : String :=
  if item.style = "XCTest" then
    let target := (pkg.getTargets "test").find?
      (fun t => pkg.getTarget location.uri = some t)
    (match target with
     | some t => t.name ++ "."
     | none => "") ++ stripTrailingParens item.id
  else item.id

mutual

/-- `LSPTestDiscovery.transform` on a single item: transform the id,
adopt the converted location, recurse into children. -/
def transform (pkg : SwiftPackageModel) : LSPItemM → TestClass
  | LSPItemM.mk i l s d tg loc ch =>
    TestClass.mk (transformId pkg (LSPItemM.mk i l s d tg loc ch) loc)
      l s d tg (some loc) (transformList pkg ch)

/-- `LSPTestDiscovery.transform` on a list of items. -/
def transformList (pkg : SwiftPackageModel) : List LSPItemM → List TestClass
  | [] => []
  | x :: xs => transform pkg x :: transformList pkg xs

end

/-- The `{version}` object a client advertises for an experimental
request method. -/
structure ExperimentalCaps where
  version : Option Int
deriving DecidableEq, Repr

/-- `workspaceTestCaps?.version >= 2`: absent capability or absent
version compares false. -/
def capabilityOK (caps : Option ExperimentalCaps) : Bool :=
  match caps with
  | some c =>
    match c.version with
    | some v => 2 ≤ v
    | none => false
  | none => false

/-- The failure `LSPTestDiscovery` raises when the client does not
support the request. -/
inductive DiscoveryError where
  | unsupported (message : String)
deriving DecidableEq, Repr

/-- `LSPTestDiscovery.getDocumentTests`: requires the
`textDocument/tests` capability at version ≥ 2, otherwise throws. -/
def getDocumentTests (caps : Option ExperimentalCaps)
    (pkg : SwiftPackageModel) (testsInDocument : List LSPItemM) :
    Except DiscoveryError (List TestClass) :=
  if capabilityOK caps then
    Except.ok (transformList pkg testsInDocument)
  else
    Except.error (DiscoveryError.unsupported "workspace/tests requests not supported")

/-- `path.relative` on normalized absolute segment paths: drop the
common prefix, then one `..` per base segment left over. -/
def relativeSegs : FsPath → FsPath → FsPath
  | b :: bs, p :: ps =>
    if b = p then relativeSegs bs ps
    else List.replicate (bs.length + 1) ".." ++ (p :: ps)
  | [], ps => ps
  | bs, [] => List.replicate bs.length ".."

/-- `isPathInsidePath(subfolder, folder)` (src/extension.ts): compute
`path.relative(folder, subfolder)` and accept unless the resulting
string starts with `".."`.  The source reads the first two *characters*
of the joined string (`relativePath[0] !== "." || relativePath[1] !==
"."`), so the test is a character test on the first segment — a first
segment merely named `"..foo"` is rejected too, and an out-of-range
index reads `undefined`, which never equals `"."`. -/
def isPathInsidePath (subfolder folder : FsPath) : Bool :=
  let relativePath := relativeSegs folder subfolder
  match relativePath with
  | [] => true
  | s :: _ =>
    match s.data with
    | [] => true
    | c :: rest =>
      if c = '.' then
        match rest with
        | [] => true
        | c2 :: _ => decide (c2 ≠ '.')
      else true

/-- `LSPTestDiscovery.getWorkspaceTests`: requires the
`workspace/tests` capability at version ≥ 2, otherwise throws; results
are restricted to the workspace root before transformation. -/
def getWorkspaceTests (caps : Option ExperimentalCaps)
    (pkg : SwiftPackageModel) (workspaceRoot : FsPath)
    (tests : List LSPItemM) : Except DiscoveryError (List TestClass) :=
  if capabilityOK caps then
    Except.ok (transformList pkg
      (tests.filter (fun item => isPathInsidePath item.location.uri workspaceRoot)))
  else
    Except.error (DiscoveryError.unsupported "workspace/tests requests not supported")

/-! ## `NonDarwinTestItemFinder` (src/TestExplorer/TestRunner.ts) -/

/-- A `vscode.TestItem` as seen by the finder: id, label and the parent
chain. -/
inductive RunItem where
  | mk (id : String) (label : String) (parent : Option RunItem)

def RunItem.id : RunItem → String
  | RunItem.mk i _ _ => i

def RunItem.label : RunItem → String
  | RunItem.mk _ l _ => l

def RunItem.parent : RunItem → Option RunItem
  | RunItem.mk _ _ p => p

/-- `Array.prototype.findIndex`: index of the first match, `-1` when
none matches. -/
def findIndexJS {α : Type} (p : α → Bool) (l : List α) : Int :=
  match l.findIdx? p with
  | some n => (n : Int)
  | none => -1

/-- The folder context fields the finder reads. -/
structure FolderContextModel where
  folderPath : FsPath
  package : SwiftPackageModel

/-- `NonDarwinTestItemFinder.isTestWithFilenameInTarget`: the candidate
must end with the reported test name, its grandparent item names the
build target, and the hinted file must be one of that target's sources
(relative to the target's directory). -/
def isTestWithFilenameInTarget (fc : FolderContextModel) (testName : String)
    (filename : FsPath) (item : RunItem) : Bool :=
  if ¬ (strEndsWith item.id testName) then false
  else
    match item.parent.bind RunItem.parent with
    | none => false
    | some targetTestItem =>
      match fc.package.targets.find? (fun t => targetTestItem.label = t.name) with
      | some target =>
        let targetPath := fc.folderPath ++ target.path
        let relativePath := relativeSegs targetPath filename
        (target.sources.find? (fun source => source = relativePath)).isSome
      | none => false

/-- `NonDarwinTestItemFinder.getIndex`: filename-scoped containment
match first, then plain suffix match, else `-1`. -/
def nonDarwinGetIndex (fc : FolderContextModel) (items : List RunItem)
    (id : String) (filename : Option FsPath) : Int :=
  let testIndex : Int :=
    match filename with
    | some fn => findIndexJS (fun item => isTestWithFilenameInTarget fc id fn item) items
    | none => -1
  if testIndex = -1 then
    findIndexJS (fun item => strEndsWith item.id id) items
  else testIndex

/-! ## Test catalog (`updateTests` / `upsertTestItem`,
src/TestExplorer/TestDiscovery.ts)

A `vscode.TestItem` is modelled with an explicit `ident` — the identity
of the underlying object, assigned when `createTestItem` runs — so that
"updated in place" versus "replaced by a fresh item" is observable.
`uri` is fixed at creation (the vscode API has no uri setter), matching
`createTestItem(id, label, location?.uri)`. -/

/-- Model of a `vscode.TestItem` held by a test controller. -/
inductive VItem where
  | mk (ident : Nat) (id : String) (label : String) (uri : Option FsPath)
      (range : Option VRange) (tags : List String) (children : List VItem)

def VItem.ident : VItem → Nat
  | VItem.mk n _ _ _ _ _ _ => n

def VItem.id : VItem → String
  | VItem.mk _ i _ _ _ _ _ => i

def VItem.label : VItem → String
  | VItem.mk _ _ l _ _ _ _ => l

def VItem.uri : VItem → Option FsPath
  | VItem.mk _ _ _ u _ _ _ => u

def VItem.range : VItem → Option VRange
  | VItem.mk _ _ _ _ r _ _ => r

def VItem.tags : VItem → List String
  | VItem.mk _ _ _ _ _ t _ => t

def VItem.children : VItem → List VItem
  | VItem.mk _ _ _ _ _ _ c => c

/-- `tag.id.replace(/^\./, "")`: strip one leading dot. -/
def stripLeadingDot (s : String) : String :=
  if strStartsWith s "." then strDrop s 1 else s

/-- `newItem.tags = [{ id: testItem.style }, ...tags]` with the leading
dots stripped from the incoming tags. -/
def itemTags (style : String) (tags : List String) : List String :=
  style :: tags.map stripLeadingDot

/-- Replace the first element satisfying `p` (what re-`add`ing the
looked-up item does to a keyed `TestItemCollection`: the entry keeps
its position). -/
def replaceFirst {α : Type} (p : α → Bool) (new : α) : List α → List α
  | [] => []
  | x :: xs => if p x then new :: xs else x :: replaceFirst p new xs

mutual

/-- `upsertTestItem(testController, testItem, parent?)` acting on the
target collection: swift-testing items are gated out entirely; an item
whose id is present is updated in place (same `ident`, `uri` untouched);
otherwise a fresh item (new `ident`, uri from the location) is appended.
Children are upserted recursively into the item's collection.  Returns
the next fresh identity and the updated collection. -/
def upsertTestItem (next : Nat) (collection : List VItem) :
    TestClass → Nat × List VItem
  | TestClass.mk i l s _ tg loc ch =>
    if s = "swift-testing" then (next, collection)
    else
      match collection.find? (fun item => item.id = i) with
      | some existing =>
        let r := upsertTestItemList next existing.children ch
        let updated := VItem.mk existing.ident i l existing.uri
          (loc.map VLocation.range) (itemTags s tg) r.2
        (r.1, replaceFirst (fun item => item.id = i) updated collection)
      | none =>
        let r := upsertTestItemList (next + 1) [] ch
        let created := VItem.mk next i l (loc.map VLocation.uri)
          (loc.map VLocation.range) (itemTags s tg) r.2
        (r.1, collection ++ [created])

/-- Sequentially upsert a list of test classes into a collection. -/
def upsertTestItemList (next : Nat) (collection : List VItem) :
    List TestClass → Nat × List VItem
  | [] => (next, collection)
  | t :: ts =>
    let r := upsertTestItem next collection t
    upsertTestItemList r.1 r.2 ts

end

/-- The removal condition of `removeOldTests`: the id is absent from the
incoming lookup, and — when a filter file is given — the item's uri
equals it (`testItem.uri?.fsPath === filterFile.fsPath`; an item without
a uri never matches). -/
def delCond (lookup : List String) (filterFile : Option FsPath)
    (id : String) (uri : Option FsPath) : Bool :=
  !(decide (id ∈ lookup)) &&
    (match filterFile with
     | none => true
     | some f => uri = some f)

mutual

/-- `removeOldTests` on one item: recurse into the children first, then
delete the item itself from its parent's collection when the removal
condition holds.  Returns the surviving item (or `none`) and the log of
`delete` calls as `(id, uri)` pairs, in invocation order. -/
def pruneItem (lookup : List String) (filterFile : Option FsPath) :
    VItem → Option VItem × List (String × Option FsPath)
  | VItem.mk idn i l u r tg ch =>
    let rc := pruneList lookup filterFile ch
    if delCond lookup filterFile i u then
      (none, rc.2 ++ [(i, u)])
    else
      (some (VItem.mk idn i l u r tg rc.1), rc.2)

/-- `removeOldTests` over a collection. -/
def pruneList (lookup : List String) (filterFile : Option FsPath) :
    List VItem → List VItem × List (String × Option FsPath)
  | [] => ([], [])
  | x :: xs =>
    let rx := pruneItem lookup filterFile x
    let rxs := pruneList lookup filterFile xs
    (match rx.1 with
     | some v => v :: rxs.1
     | none => rxs.1, rx.2 ++ rxs.2)

end

mutual

/-- `createIncomingTestLookup`'s `traverse`: record the id and recurse
into the children only when no filter file is given or the item's
location lies in it (a subtree whose root fails the check is skipped
whole). -/
def incomingLookupItem (filterFile : Option FsPath) :
    TestClass → List String
  | TestClass.mk i _ _ _ _ loc ch =>
    if (match filterFile with
        | none => true
        | some f => loc.map VLocation.uri = some f) then
      i :: incomingLookupList filterFile ch
    else []

/-- `createIncomingTestLookup` over the incoming collection. -/
def incomingLookupList (filterFile : Option FsPath) :
    List TestClass → List String
  | [] => []
  | x :: xs =>
    incomingLookupItem filterFile x ++ incomingLookupList filterFile xs

end

/-- The mutable state of a `vscode.TestController`: its root item
collection plus the identity counter for `createTestItem`. -/
structure ControllerModel where
  nextIdent : Nat
  items : List VItem

/-- `updateTests(testController, testItems, filterFile?)`: build the
incoming lookup (note: the call site passes no filter file to
`createIncomingTestLookup`), prune the existing tree unless the
controller is empty, then upsert the incoming items.  The trailing
`testController.items.forEach(item => testController.items.add(item))`
re-adds items already present and leaves the collection unchanged.
Returns the new controller state and the log of `delete` calls. -/
def updateTests (ctrl : ControllerModel) (testItems : List TestClass)
    (filterFile : Option FsPath) :
    ControllerModel × List (String × Option FsPath) :=
  let lookup := incomingLookupList none testItems
  let pruned :=
    if ctrl.items.length ≠ 0 then pruneList lookup filterFile ctrl.items
    else (ctrl.items, [])
  let upserted := upsertTestItemList ctrl.nextIdent pruned.1 testItems
  (⟨upserted.1, upserted.2⟩, pruned.2)

/-- The controller state after `updateTests` (dropping the delete log). -/
def updateTestsState (ctrl : ControllerModel) (testItems : List TestClass)
    (filterFile : Option FsPath) : ControllerModel :=
  (updateTests ctrl testItems filterFile).1

mutual

/-- All nodes of an item's subtree, in post-order (children first). -/
def vitemNodes : VItem → List VItem
  | VItem.mk idn i l u r tg ch =>
    vitemNodesList ch ++ [VItem.mk idn i l u r tg ch]

/-- All nodes of a collection's subtrees, in post-order. -/
def vitemNodesList : List VItem → List VItem
  | [] => []
  | x :: xs => vitemNodes x ++ vitemNodesList xs

end

mutual

/-- All nodes of an incoming test class's subtree (the class itself
first, then its descendants). -/
def classNodes : TestClass → List TestClass
  | TestClass.mk i l s d tg loc ch =>
    TestClass.mk i l s d tg loc ch :: classNodesList ch

/-- All nodes of a list of incoming test classes. -/
def classNodesList : List TestClass → List TestClass
  | [] => []
  | x :: xs => classNodes x ++ classNodesList xs

end

/-- No string occurs twice in the list. -/
def nodupKeys : List String → Bool
  | [] => true
  | x :: xs => !(decide (x ∈ xs)) && nodupKeys xs

mutual

/-- Ids are unique among siblings at every level below this class. -/
def classNodup : TestClass → Bool
  | TestClass.mk _ _ _ _ _ _ ch =>
    nodupKeys (ch.map TestClass.id) && classNodupList ch

def classNodupList : List TestClass → Bool
  | [] => true
  | x :: xs => classNodup x && classNodupList xs

end

/-- A well-formed discovery snapshot: ids unique among siblings at every
level (the reconciler contract: "never emits duplicate ids at the same
tree depth"). -/
def snapNodup (tcs : List TestClass) : Bool :=
  nodupKeys (tcs.map TestClass.id) && classNodupList tcs

mutual

/-- Ids are unique among siblings at every level below this item. -/
def itemIdsNodup : VItem → Bool
  | VItem.mk _ _ _ _ _ _ ch =>
    nodupKeys (ch.map VItem.id) && itemIdsNodupList ch

def itemIdsNodupList : List VItem → Bool
  | [] => true
  | x :: xs => itemIdsNodup x && itemIdsNodupList xs

end

/-- Ids unique among siblings at every level of the catalog tree. -/
def treeIdsNodup (l : List VItem) : Bool :=
  nodupKeys (l.map VItem.id) && itemIdsNodupList l

mutual

/-- The collection already reflects the incoming class exactly: an item
with the class's id exists whose scalar fields carry the class's data
and whose children already reflect the class's children (swift-testing
classes are vacuously reflected, since the upsert gate skips them). -/
def stable (tc : TestClass) (c : List VItem) : Bool :=
  match tc with
  | TestClass.mk i l s _ tg loc ch =>
    if s = "swift-testing" then true
    else
      match c.find? (fun item => item.id = i) with
      | some e =>
        decide (e.label = l) && decide (e.range = loc.map VLocation.range) &&
        decide (e.tags = itemTags s tg) && stableList ch e.children
      | none => false

/-- Every class of the list is reflected by the collection. -/
def stableList (tcs : List TestClass) (c : List VItem) : Bool :=
  match tcs with
  | [] => true
  | t :: ts => stable t c && stableList ts c

end

/-- Number of `end()` invocations in a run-handler action trace. -/
def countEnds (l : List RunAction) : Nat :=
  (l.filter (fun a => a = RunAction.endRun)).length

/-! ## Theorems -/

/-- C1: For every test run handled by `TestRunner.runHandler`, the
reporting sink's `end()` is invoked exactly once by the time the handler
returns — on the build-failure early-return path (which skips the
session), on a thrown error, on cancellation, and on normal
completion — and a build that exits non-zero or with an undefined exit
code aborts the run before any session is launched. -/
theorem runHandler_end_exactly_once (k : TestKindM) (dbg : Bool)
    (b : BuildOutcome) (s : SessionOutcome) :
    countEnds (runHandler k dbg b s) = 1 ∧
    (runHandler k dbg b s).any RunAction.isSession = !(buildAborts k b) := by
  cases k <;> cases b <;> cases s
  all_goals try (rename_i code; by_cases hc : code = some 0)
  all_goals simp_all [runHandler, runHandlerTryBody, buildAborts, countEnds,
    RunAction.isSession]

/-- If the duration computation succeeds with value `d`, the completion
event appended by `completed` carries duration `d`. -/
theorem completedDuration_completed (st : RunStateModel) (i : Nat)
    (timing : TimingM) (d : ℚ)
    (h : computeDuration (startTimeGet st.startTimes i) timing = Except.ok d) :
    completedDuration (st.completed i timing) = some d := by
  simp only [RunStateModel.completed]
  rw [h]
  simp only [completedDuration, List.getLast?_concat, Option.some_bind]
  split <;> rfl

/-- Pushing a start time for `i` makes it the recorded start time. -/
theorem startTimeGet_started (st : RunStateModel) (i : Nat) (t? : Option ℚ) :
    startTimeGet (st.started i t?).startTimes i = t? := by
  simp [RunStateModel.started, startTimeGet, List.find?]

/-- C2: A completion delivered in timestamp form for a test whose start
was recorded with timestamp `T0` computes duration `(timestamp − T0)`
under the same ×1000 scaling used by the explicit-duration form; in
particular for `T0 = 10.0` and `timestamp = 10.006` the computed
duration is the same value the explicit form computes for `0.006`
seconds, namely `0.006 × 1000`. -/
theorem completed_timestamp_duration (st : RunStateModel) (i : Nat)
    (t0 ts : ℚ) :
    completedDuration ((st.started i (some t0)).completed i
        (TimingM.timestamp ts)) = some ((ts - t0) * 1000) ∧
    (∀ (st' : RunStateModel) (j : Nat) (d : ℚ),
      completedDuration (st'.completed j (TimingM.duration d)) = some (d * 1000)) ∧
    completedDuration ((RunStateModel.empty.started 0 (some 10)).completed 0
        (TimingM.timestamp (10006 / 1000))) =
      completedDuration (RunStateModel.empty.completed 0
        (TimingM.duration (6 / 1000))) ∧
    completedDuration ((RunStateModel.empty.started 0 (some 10)).completed 0
        (TimingM.timestamp (10006 / 1000))) = some ((6 / 1000) * 1000) := by
  refine ⟨?_, ?_, ?_, ?_⟩
  · refine completedDuration_completed _ i (TimingM.timestamp ts) _ ?_
    rw [startTimeGet_started]
    rfl
  · intro st' j d
    exact completedDuration_completed st' j (TimingM.duration d) (d * 1000) rfl
  · have h1 : completedDuration ((RunStateModel.empty.started 0 (some 10)).completed 0
        (TimingM.timestamp (10006 / 1000))) = some ((10006 / 1000 - 10) * 1000) := by
      refine completedDuration_completed _ _ _ _ ?_
      rw [startTimeGet_started]
      rfl
    have h2 : completedDuration (RunStateModel.empty.completed 0
        (TimingM.duration (6 / 1000))) = some (((6 : ℚ) / 1000) * 1000) :=
      completedDuration_completed _ _ _ _ rfl
    rw [h1, h2]
    norm_num
  · have h1 : completedDuration ((RunStateModel.empty.started 0 (some 10)).completed 0
        (TimingM.timestamp (10006 / 1000))) = some ((10006 / 1000 - 10) * 1000) := by
      refine completedDuration_completed _ _ _ _ ?_
      rw [startTimeGet_started]
      rfl
    rw [h1]
    norm_num

/-- C9: A timestamp-form completion for an index with no recorded start
time raises the hard internal error (the `throw` in
`TestRunnerTestRunState.completed`), while a duration-form completion
never consults the recorded start time and always succeeds. -/
theorem completed_timestamp_without_start (st : RunStateModel) (i : Nat)
    (ts : ℚ) (h : startTimeGet st.startTimes i = none) :
    st.completed i (TimingM.timestamp ts) = Except.error
      "Timestamp was provided on test completion, but there was no startTime set when the test was started." ∧
    (∀ (st' : RunStateModel) (j : Nat) (d : ℚ),
      ∃ r, st'.completed j (TimingM.duration d) = Except.ok r) := by
  constructor
  · simp [RunStateModel.completed, computeDuration, h]
  · intro st' j d
    simp only [RunStateModel.completed, computeDuration]
    exact ⟨_, rfl⟩

/-- C9 witness: on the empty run state no start time is recorded, and
the timestamp-form completion errors. -/
theorem completed_timestamp_without_start_witness :
    startTimeGet RunStateModel.empty.startTimes 0 = none ∧
    (RunStateModel.empty.completed 0 (TimingM.timestamp 5) = Except.error
      "Timestamp was provided on test completion, but there was no startTime set when the test was started." ∧
    (∀ (st' : RunStateModel) (j : Nat) (d : ℚ),
      ∃ r, st'.completed j (TimingM.duration d) = Except.ok r)) :=
  ⟨rfl, completed_timestamp_without_start RunStateModel.empty 0 5 rfl⟩

/-- C4: A test process closing with exit code 0 or `undefined` resolves
the standard session as success; exit code exactly 1 is "tests ran and
some failed" and appends no run-level error text; any other non-zero
exit code or thrown error is surfaced as run-level `Error:` output. -/
theorem standardSession_exit_code_handling :
    runStandardSession (ProcessOutcome.closed none) = Except.ok () ∧
    runStandardSession (ProcessOutcome.closed (some 0)) = Except.ok () ∧
    launchTestsStandardErrorOutput (ProcessOutcome.closed (some 1)) = [] ∧
    (∀ c : Int, c ≠ 0 → c ≠ 1 →
      launchTestsStandardErrorOutput (ProcessOutcome.closed (some c)) =
        ["Error: " ++ toString c]) ∧
    (∀ m : String,
      launchTestsStandardErrorOutput (ProcessOutcome.error m) =
        ["Error: " ++ m]) := by
  refine ⟨rfl, rfl, rfl, ?_, fun m => rfl⟩
  intro c h0 h1
  simp [launchTestsStandardErrorOutput, runStandardSession, rejectIsOne, h0, h1]

/-- C4 witness: exit code 2 is neither success nor the test-failure
sentinel and produces run-level error text. -/
theorem standardSession_exit_code_handling_witness :
    (2 : Int) ≠ 0 ∧ (2 : Int) ≠ 1 ∧
    launchTestsStandardErrorOutput (ProcessOutcome.closed (some 2)) =
      ["Error: " ++ toString (2 : Int)] :=
  ⟨by decide, by decide,
    standardSession_exit_code_handling.2.2.2.1 2 (by decide) (by decide)⟩

/-- C3: A discovery query whose advertised capability is absent or below
version 2 fails with the distinct discovery-unsupported error (for both
the document and the workspace query), while a supported source that
finds zero tests returns an empty list without error. -/
theorem discovery_unsupported_signal (caps : Option ExperimentalCaps)
    (pkg : SwiftPackageModel) (resp : List LSPItemM) (root : FsPath) :
    (capabilityOK caps = false →
      getDocumentTests caps pkg resp =
        Except.error (DiscoveryError.unsupported "workspace/tests requests not supported") ∧
      getWorkspaceTests caps pkg root resp =
        Except.error (DiscoveryError.unsupported "workspace/tests requests not supported")) ∧
    (capabilityOK caps = true →
      getDocumentTests caps pkg [] = Except.ok [] ∧
      getWorkspaceTests caps pkg root [] = Except.ok []) ∧
    capabilityOK none = false ∧
    (∀ v : Int, v < 2 → capabilityOK (some ⟨some v⟩) = false) := by
  refine ⟨?_, ?_, rfl, ?_⟩
  · intro h
    constructor <;> simp [getDocumentTests, getWorkspaceTests, h]
  · intro h
    constructor <;> simp [getDocumentTests, getWorkspaceTests, h, transformList]
  · intro v hv
    simp [capabilityOK]
    omega

/-- C3 witness: a source advertising capability version 1 produces the
discovery-unsupported error rather than an empty result. -/
theorem discovery_unsupported_signal_witness :
    capabilityOK (some ⟨some 1⟩) = false ∧
    getDocumentTests (some ⟨some 1⟩) ⟨[], fun _ => none⟩ [] =
      Except.error (DiscoveryError.unsupported "workspace/tests requests not supported") ∧
    getWorkspaceTests (some ⟨some 1⟩) ⟨[], fun _ => none⟩ [] [] =
      Except.error (DiscoveryError.unsupported "workspace/tests requests not supported") :=
  ⟨rfl, (discovery_unsupported_signal (some ⟨some 1⟩) ⟨[], fun _ => none⟩ [] []).1 rfl⟩

/-- `find?` returns the element when it is in the list, satisfies the
predicate, and is the only element of the list doing so. -/
theorem find?_eq_some_of_unique {α : Type} (p : α → Bool) (l : List α)
    (t : α) (hmem : t ∈ l) (hp : p t = true)
    (huniq : ∀ x ∈ l, p x = true → x = t) : l.find? p = some t := by
  induction l with
  | nil => cases hmem
  | cons a as ih =>
    by_cases hpa : p a = true
    · have hat : a = t := huniq a (List.mem_cons_self a as) hpa
      subst hat
      exact List.find?_cons_of_pos as hpa
    · rw [List.find?_cons_of_neg as (by simp [hpa])]
      rcases List.mem_cons.mp hmem with h | h
      · exact absurd (h ▸ hp) hpa
      · exact ih h (fun x hx hpx => huniq x (List.mem_cons_of_mem a hx) hpx)

/-- C7: For a discovered item of style "XCTest" whose id ends in `()`,
located in a test target of the package, `transformId` produces
`<target name>.<id without the trailing parentheses>`; items of any
other style keep their id unchanged. -/
theorem transformId_xctest_roundtrip (pkg : SwiftPackageModel)
    (item : LSPItemM) (loc : VLocation) (t : Target)
    (hstyle : item.style = "XCTest") (hends : strEndsWith item.id "()" = true)
    (hmem : t ∈ pkg.targets) (htype : t.type = "test")
    (hloc : pkg.getTarget loc.uri = some t) :
    transformId pkg item loc = t.name ++ "." ++ strDropRight item.id 2 ∧
    (∀ (item' : LSPItemM) (loc' : VLocation),
      item'.style ≠ "XCTest" → transformId pkg item' loc' = item'.id) := by
  constructor
  · have hfind : (pkg.getTargets "test").find?
        (fun x => pkg.getTarget loc.uri = some x) = some t := by
      refine find?_eq_some_of_unique _ _ t ?_ ?_ ?_
      · exact List.mem_filter.mpr ⟨hmem, by simp [htype]⟩
      · simp [hloc]
      · intro x _ hpx
        have : pkg.getTarget loc.uri = some x := by simpa using hpx
        exact (Option.some.inj (hloc ▸ this)).symm
    simp [transformId, hstyle, hfind, stripTrailingParens, hends]
  · intro item' loc' hstyle'
    simp [transformId, hstyle']

/-- C7 witness: a concrete XCTest-style item inside a test target
round-trips to `<target>.<name>` with the parentheses removed. -/
theorem transformId_xctest_roundtrip_witness :
    (LSPItemM.mk "MyTests/testFoo()" "testFoo()" "XCTest" false []
        ⟨["pkg", "Tests", "TT", "f.swift"], ⟨1, 0, 1, 5⟩⟩ []).style = "XCTest" ∧
    strEndsWith (LSPItemM.mk "MyTests/testFoo()" "testFoo()" "XCTest" false []
        ⟨["pkg", "Tests", "TT", "f.swift"], ⟨1, 0, 1, 5⟩⟩ []).id "()" = true ∧
    transformId
      ⟨[⟨"TT", ["Tests", "TT"], [["f.swift"]], "test"⟩],
        fun p => if p = ["pkg", "Tests", "TT", "f.swift"]
          then some ⟨"TT", ["Tests", "TT"], [["f.swift"]], "test"⟩ else none⟩
      (LSPItemM.mk "MyTests/testFoo()" "testFoo()" "XCTest" false []
        ⟨["pkg", "Tests", "TT", "f.swift"], ⟨1, 0, 1, 5⟩⟩ [])
      ⟨["pkg", "Tests", "TT", "f.swift"], ⟨1, 0, 1, 5⟩⟩ =
      "TT" ++ "." ++ strDropRight "MyTests/testFoo()" 2 := by
  refine ⟨rfl, by decide, ?_⟩
  exact (transformId_xctest_roundtrip
    ⟨[⟨"TT", ["Tests", "TT"], [["f.swift"]], "test"⟩],
      fun p => if p = ["pkg", "Tests", "TT", "f.swift"]
        then some ⟨"TT", ["Tests", "TT"], [["f.swift"]], "test"⟩ else none⟩
    (LSPItemM.mk "MyTests/testFoo()" "testFoo()" "XCTest" false []
      ⟨["pkg", "Tests", "TT", "f.swift"], ⟨1, 0, 1, 5⟩⟩ [])
    ⟨["pkg", "Tests", "TT", "f.swift"], ⟨1, 0, 1, 5⟩⟩
    ⟨"TT", ["Tests", "TT"], [["f.swift"]], "test"⟩
    rfl (by decide) (by decide) rfl (by decide)).1

/-- C8: On the non-qualified-id platform, a lookup with a filename hint
first returns the index of the first item passing the same-file
containment check (which itself requires the candidate id to end with
the reported id); with no filename, or when the containment check
matches nothing, it falls back to the first plain suffix match; it
returns −1 exactly when no suffix match exists. -/
theorem nonDarwin_getIndex_spec (fc : FolderContextModel)
    (items : List RunItem) (id : String) :
    (∀ (fn : FsPath) (i : Nat),
      items.findIdx? (fun it => isTestWithFilenameInTarget fc id fn it) = some i →
      nonDarwinGetIndex fc items id (some fn) = (i : Int)) ∧
    (∀ fn : FsPath,
      items.findIdx? (fun it => isTestWithFilenameInTarget fc id fn it) = none →
      nonDarwinGetIndex fc items id (some fn) =
        findIndexJS (fun it => strEndsWith it.id id) items) ∧
    nonDarwinGetIndex fc items id none =
      findIndexJS (fun it => strEndsWith it.id id) items ∧
    (∀ (fn : FsPath) (it : RunItem),
      isTestWithFilenameInTarget fc id fn it = true → strEndsWith it.id id = true) ∧
    (∀ fn? : Option FsPath,
      (nonDarwinGetIndex fc items id fn? = -1 ↔
        ∀ it ∈ items, strEndsWith it.id id = false)) := by
  have hsuffix : findIndexJS (fun it => strEndsWith it.id id) items = -1 ↔
      ∀ it ∈ items, strEndsWith it.id id = false := by
    rcases hf : items.findIdx? (fun it => strEndsWith it.id id) with _ | n
    · simp only [findIndexJS, hf]
      constructor
      · intro _
        exact List.findIdx?_eq_none_iff.mp hf
      · intro _
        trivial
    · simp only [findIndexJS, hf]
      constructor
      · intro h
        exfalso
        omega
      · intro h
        rw [List.findIdx?_eq_none_iff.mpr h] at hf
        cases hf
  have himp : ∀ (fn : FsPath) (it : RunItem),
      isTestWithFilenameInTarget fc id fn it = true →
        strEndsWith it.id id = true := by
    intro fn it h
    unfold isTestWithFilenameInTarget at h
    by_cases he : strEndsWith it.id id = true
    · exact he
    · simp [he] at h
  refine ⟨?_, ?_, rfl, himp, ?_⟩
  · intro fn i h
    have hne : ¬ ((i : Int) = -1) := by omega
    simp [nonDarwinGetIndex, findIndexJS, h, hne]
  · intro fn h
    simp [nonDarwinGetIndex, findIndexJS, h]
  · intro fn?
    rcases fn? with _ | fn
    · exact hsuffix
    · rcases hf : items.findIdx? (fun it => isTestWithFilenameInTarget fc id fn it)
        with _ | i
      · simpa [nonDarwinGetIndex, findIndexJS, hf] using hsuffix
      · have hne : ¬ ((i : Int) = -1) := by omega
        simp only [nonDarwinGetIndex, findIndexJS, hf, if_neg hne]
        constructor
        · intro h
          exact absurd h hne
        · intro h
          exfalso
          have hany : items.any
              (fun it => isTestWithFilenameInTarget fc id fn it) = true := by
            rw [← List.findIdx?_isSome, hf]
            rfl
          obtain ⟨it, hmem, hit⟩ := List.any_eq_true.mp hany
          exact absurd (himp fn it hit) (by simp [h it hmem])

/-! ### List and tree helper lemmas for the catalog proofs -/

/-- Replacing the found element by itself leaves the list unchanged. -/
theorem replaceFirst_self {α : Type} (p : α → Bool) (l : List α) (e : α)
    (h : l.find? p = some e) : replaceFirst p e l = l := by
  induction l with
  | nil => cases h
  | cons a as ih =>
    by_cases hpa : p a = true
    · rw [List.find?_cons_of_pos as hpa] at h
      injection h with h
      subst h
      simp [replaceFirst, hpa]
    · have hpa' : p a = false := by simpa using hpa
      simp only [List.find?, hpa'] at h
      simp [replaceFirst, hpa', ih h]

/-- `replaceFirst` keeps the list length. -/
theorem replaceFirst_length {α : Type} (p : α → Bool) (new : α)
    (l : List α) : (replaceFirst p new l).length = l.length := by
  induction l with
  | nil => rfl
  | cons a as ih =>
    by_cases hpa : p a = true <;> simp [replaceFirst, hpa, ih]

/-- After replacing the first `p`-match by a new `p`-match, `find? p`
returns the new element. -/
theorem replaceFirst_find?_same {α : Type} (p : α → Bool) (new : α)
    (l : List α) (e : α) (h : l.find? p = some e) (hnew : p new = true) :
    (replaceFirst p new l).find? p = some new := by
  induction l with
  | nil => cases h
  | cons a as ih =>
    by_cases hpa : p a = true
    · simp [replaceFirst, hpa, List.find?, hnew]
    · have hpa' : p a = false := by simpa using hpa
      simp only [List.find?, hpa'] at h
      simp [replaceFirst, hpa', List.find?, ih h]

/-- Replacing the first `p`-match does not change `find? q` when `q`
holds neither for the replaced element nor for its replacement. -/
theorem replaceFirst_find?_other {α : Type} (p q : α → Bool) (new : α)
    (l : List α) (e : α) (h : l.find? p = some e) (hqe : q e = false)
    (hqnew : q new = false) :
    (replaceFirst p new l).find? q = l.find? q := by
  induction l with
  | nil => cases h
  | cons a as ih =>
    by_cases hpa : p a = true
    · rw [List.find?_cons_of_pos as hpa] at h
      injection h with h
      subst h
      simp [replaceFirst, hpa, List.find?, hqnew, hqe]
    · have hpa' : p a = false := by simpa using hpa
      simp only [List.find?, hpa'] at h
      by_cases hqa : q a = true
      · simp [replaceFirst, hpa', List.find?, hqa]
      · have hqa' : q a = false := by simpa using hqa
        simp [replaceFirst, hpa', List.find?, hqa', ih h]

/-- A member of `replaceFirst p new l` is a member of `l` or is `new`. -/
theorem mem_replaceFirst {α : Type} (p : α → Bool) (new : α) (l : List α)
    (x : α) (h : x ∈ replaceFirst p new l) : x ∈ l ∨ x = new := by
  induction l with
  | nil => cases h
  | cons a as ih =>
    by_cases hpa : p a = true
    · simp only [replaceFirst, if_pos hpa] at h
      rcases List.mem_cons.mp h with h | h
      · exact Or.inr h
      · exact Or.inl (List.mem_cons_of_mem a h)
    · simp only [replaceFirst, if_neg (by simp [hpa] : ¬ p a = true)] at h
      rcases List.mem_cons.mp h with h | h
      · exact Or.inl (h ▸ List.mem_cons_self a as)
      · rcases ih h with h | h
        · exact Or.inl (List.mem_cons_of_mem a h)
        · exact Or.inr h

/-- Subtree nodes distribute over list append. -/
theorem vitemNodesList_append (a b : List VItem) :
    vitemNodesList (a ++ b) = vitemNodesList a ++ vitemNodesList b := by
  induction a with
  | nil => simp [vitemNodesList]
  | cons x xs ih => simp [vitemNodesList, ih]

/-- Every item is one of its own subtree nodes. -/
theorem self_mem_vitemNodes (v : VItem) : v ∈ vitemNodes v := by
  cases v
  simp [vitemNodes]

/-- A child-subtree node is a subtree node. -/
theorem mem_vitemNodes_of_children (v : VItem) (x : VItem)
    (h : x ∈ vitemNodesList v.children) : x ∈ vitemNodes v := by
  cases v
  simp only [vitemNodes, VItem.children] at h ⊢
  exact List.mem_append_left _ h

/-- Subtree nodes of a member are nodes of the collection. -/
theorem mem_vitemNodesList_of_mem (e : VItem) (c : List VItem)
    (he : e ∈ c) (x : VItem) (hx : x ∈ vitemNodes e) :
    x ∈ vitemNodesList c := by
  induction c with
  | nil => cases he
  | cons a as ih =>
    simp only [vitemNodesList]
    rcases List.mem_cons.mp he with h | h
    · exact List.mem_append_left _ (h ▸ hx)
    · exact List.mem_append_right _ (ih h)

/-- Every class is one of its own subtree nodes. -/
theorem self_mem_classNodes (tc : TestClass) : tc ∈ classNodes tc := by
  cases tc
  simp [classNodes]

/-- A child-subtree class is a subtree class. -/
theorem mem_classNodes_of_children (tc : TestClass) (x : TestClass)
    (h : x ∈ classNodesList tc.children) : x ∈ classNodes tc := by
  cases tc
  simp only [classNodes, TestClass.children] at h ⊢
  exact List.mem_cons_of_mem _ h

/-- Subtree classes of a member are subtree classes of the list. -/
theorem mem_classNodesList_of_mem (tc : TestClass) (tcs : List TestClass)
    (htc : tc ∈ tcs) (x : TestClass) (hx : x ∈ classNodes tc) :
    x ∈ classNodesList tcs := by
  induction tcs with
  | nil => cases htc
  | cons a as ih =>
    simp only [classNodesList]
    rcases List.mem_cons.mp htc with h | h
    · exact List.mem_append_left _ (h ▸ hx)
    · exact List.mem_append_right _ (ih h)

mutual

/-- Every subtree class id of an item reaches the (unfiltered) incoming
lookup built from it. -/
theorem lookup_contains_item (tc : TestClass) :
    ∀ tc' ∈ classNodes tc, tc'.id ∈ incomingLookupItem none tc := by
  cases tc with
  | mk i l s d tg loc ch =>
    intro tc' h
    simp only [classNodes] at h
    simp only [incomingLookupItem]
    rcases List.mem_cons.mp h with h | h
    · subst h
      exact List.mem_cons_self _ _
    · exact List.mem_cons_of_mem _ (lookup_contains_list ch tc' h)

/-- Every subtree class id of a class list reaches the (unfiltered)
incoming lookup built from it. -/
theorem lookup_contains_list (tcs : List TestClass) :
    ∀ tc' ∈ classNodesList tcs, tc'.id ∈ incomingLookupList none tcs := by
  cases tcs with
  | nil => intro tc' h; cases h
  | cons x xs =>
    intro tc' h
    simp only [classNodesList] at h
    simp only [incomingLookupList]
    rcases List.mem_append.mp h with h | h
    · exact List.mem_append_left _ (lookup_contains_item x tc' h)
    · exact List.mem_append_right _ (lookup_contains_list xs tc' h)

end

mutual

/-- An upsert of a class that the collection already reflects exactly is
a no-op: same collection, no fresh identities. -/
theorem upsert_of_stable (n : Nat) (c : List VItem) (tc : TestClass)
    (h : stable tc c = true) : upsertTestItem n c tc = (n, c) := by
  cases tc with
  | mk i l s d tg loc ch =>
    by_cases hs : s = "swift-testing"
    · simp [upsertTestItem, hs]
    · rcases hfind : c.find? (fun item => item.id = i) with _ | e
      · simp only [stable, if_neg hs, hfind] at h
        exact Bool.noConfusion h
      · cases e with
        | mk eidn eid elb euri erng etg ech =>
          simp only [stable, if_neg hs, hfind, VItem.label, VItem.range,
            VItem.tags, VItem.children, Bool.and_eq_true,
            decide_eq_true_eq] at h
          obtain ⟨⟨⟨hlabel, hrange⟩, htags⟩, hstable⟩ := h
          have hid : eid = i := by
            have := List.find?_some hfind
            simpa [VItem.id] using this
          subst hid
          subst hlabel
          subst hrange
          subst htags
          have hchild := upsertList_of_stableList n ech ch hstable
          simp only [upsertTestItem, if_neg hs, hfind, VItem.ident, VItem.uri,
            VItem.children, hchild]
          rw [replaceFirst_self (fun item => item.id = eid) c _ hfind]

/-- Upserting a list of classes that the collection already reflects is
a no-op. -/
theorem upsertList_of_stableList (n : Nat) (c : List VItem)
    (tcs : List TestClass) (h : stableList tcs c = true) :
    upsertTestItemList n c tcs = (n, c) := by
  cases tcs with
  | nil => rfl
  | cons t ts =>
    simp only [stableList, Bool.and_eq_true] at h
    have h1 := upsert_of_stable n c t h.1
    simp only [upsertTestItemList, h1]
    exact upsertList_of_stableList n c ts h.2

end

/-- Upserting a class with a different id does not change what
`find?`-by-id returns for this id. -/
theorem find?_id_upsert_other (i : String) (n : Nat) (c : List VItem)
    (tc' : TestClass) (hne : tc'.id ≠ i) :
    (upsertTestItem n c tc').2.find? (fun it => it.id = i) =
      c.find? (fun it => it.id = i) := by
  cases tc' with
  | mk j l s d tg loc ch =>
    simp only [TestClass.id] at hne
    by_cases hs : s = "swift-testing"
    · simp [upsertTestItem, hs]
    · rcases hfind : c.find? (fun item => item.id = j) with _ | e
      · simp only [upsertTestItem, if_neg hs, hfind]
        rw [List.find?_append]
        simp [List.find?, VItem.id, hne]
      · simp only [upsertTestItem, if_neg hs, hfind]
        refine replaceFirst_find?_other _ _ _ c e hfind ?_ ?_
        · have : e.id = j := by simpa using List.find?_some hfind
          simp [this, hne]
        · simp [VItem.id, hne]

/-- Stability of a class is preserved by upserting a class with a
different id. -/
theorem stable_upsert_other (tc tc' : TestClass) (n : Nat)
    (c : List VItem) (hne : tc'.id ≠ tc.id) (h : stable tc c = true) :
    stable tc (upsertTestItem n c tc').2 = true := by
  cases tc with
  | mk i l s d tg loc ch =>
    by_cases hs : s = "swift-testing"
    · simp [stable, hs]
    · have hpres := find?_id_upsert_other i n c tc'
        (by simpa [TestClass.id] using hne)
      simp only [stable, if_neg hs] at h ⊢
      rw [hpres]
      exact h

/-- Stability of a class is preserved by upserting any list of classes
with different ids. -/
theorem stable_upsertList_other (tc : TestClass) (tcs : List TestClass)
    (n : Nat) (c : List VItem) (hne : ∀ t' ∈ tcs, t'.id ≠ tc.id)
    (h : stable tc c = true) :
    stable tc (upsertTestItemList n c tcs).2 = true := by
  induction tcs generalizing n c with
  | nil => exact h
  | cons t ts ih =>
    simp only [upsertTestItemList]
    exact ih _ _ (fun t' ht' => hne t' (List.mem_cons_of_mem _ ht'))
      (stable_upsert_other tc t n c (hne t (List.mem_cons_self _ _)) h)

mutual

/-- After upserting a (per-level id-unique) class, the collection
reflects it. -/
theorem stable_after_upsert (n : Nat) (c : List VItem) (tc : TestClass)
    (hnd : classNodup tc = true) :
    stable tc (upsertTestItem n c tc).2 = true := by
  cases tc with
  | mk i l s d tg loc ch =>
    by_cases hs : s = "swift-testing"
    · simp [stable, hs]
    · simp only [classNodup, Bool.and_eq_true] at hnd
      rcases hfind : c.find? (fun item => item.id = i) with _ | e
      · simp only [upsertTestItem, if_neg hs, hfind]
        simp only [stable, if_neg hs]
        rw [List.find?_append, hfind, Option.none_or]
        simp [List.find?, VItem.id, VItem.label, VItem.range, VItem.tags,
          VItem.children,
          stableList_after_upsertList (n + 1) [] ch hnd.1 hnd.2]
      · cases e with
        | mk eidn eid elb euri erng etg ech =>
          simp only [upsertTestItem, if_neg hs, hfind]
          simp only [stable, if_neg hs]
          rw [replaceFirst_find?_same _ _ c _ hfind (by simp [VItem.id])]
          simp [VItem.label, VItem.range, VItem.tags, VItem.children,
            stableList_after_upsertList n ech ch hnd.1 hnd.2]

/-- After upserting a per-level id-unique class list, the collection
reflects every class of the list. -/
theorem stableList_after_upsertList (n : Nat) (c : List VItem)
    (tcs : List TestClass) (hkeys : nodupKeys (tcs.map TestClass.id) = true)
    (hnd : classNodupList tcs = true) :
    stableList tcs (upsertTestItemList n c tcs).2 = true := by
  cases tcs with
  | nil => rfl
  | cons t ts =>
    simp only [classNodupList, Bool.and_eq_true] at hnd
    simp only [List.map_cons, nodupKeys, Bool.and_eq_true, Bool.not_eq_true',
      decide_eq_false_iff_not] at hkeys
    simp only [upsertTestItemList]
    simp only [stableList, Bool.and_eq_true]
    constructor
    · refine stable_upsertList_other t ts _ _ ?_
        (stable_after_upsert n c t hnd.1)
      intro t' ht' heq
      exact hkeys.1 (heq ▸ List.mem_map_of_mem TestClass.id ht')
    · exact stableList_after_upsertList _ _ ts hkeys.2 hnd.2

end

/-- Upserting the same (per-level id-unique) class list twice is the
same as upserting it once. -/
theorem upsertList_idem (n : Nat) (c : List VItem) (tcs : List TestClass)
    (h : snapNodup tcs = true) :
    upsertTestItemList (upsertTestItemList n c tcs).1
        (upsertTestItemList n c tcs).2 tcs = upsertTestItemList n c tcs := by
  simp only [snapNodup, Bool.and_eq_true] at h
  have hst := stableList_after_upsertList n c tcs h.1 h.2
  rw [upsertList_of_stableList _ _ tcs hst]

mutual

/-- Every subtree node of a prune survivor fails the removal
condition. -/
theorem pruneItem_nodes_not_del (L : List String) (f : Option FsPath)
    (v : VItem) :
    ∀ w, (pruneItem L f v).1 = some w →
      ∀ x ∈ vitemNodes w, delCond L f x.id x.uri = false := by
  cases v with
  | mk idn i l u r tg ch =>
    intro w hw x hx
    simp only [pruneItem] at hw
    by_cases hdel : delCond L f i u = true
    · rw [if_pos hdel] at hw
      cases hw
    · rw [if_neg hdel] at hw
      injection hw with hw
      subst hw
      simp only [vitemNodes] at hx
      rcases List.mem_append.mp hx with hx | hx
      · exact pruneList_nodes_not_del L f ch x hx
      · rw [List.mem_singleton.mp hx]
        simpa [VItem.id, VItem.uri] using hdel

/-- Every subtree node of the pruned collection fails the removal
condition. -/
theorem pruneList_nodes_not_del (L : List String) (f : Option FsPath)
    (l : List VItem) :
    ∀ x ∈ vitemNodesList (pruneList L f l).1,
      delCond L f x.id x.uri = false := by
  cases l with
  | nil => intro x hx; cases hx
  | cons a as =>
    intro x hx
    simp only [pruneList] at hx
    rcases ha : (pruneItem L f a).1 with _ | v
    · rw [ha] at hx
      exact pruneList_nodes_not_del L f as x hx
    · rw [ha] at hx
      simp only [vitemNodesList] at hx
      rcases List.mem_append.mp hx with hx | hx
      · exact pruneItem_nodes_not_del L f a v ha x hx
      · exact pruneList_nodes_not_del L f as x hx

end

mutual

/-- Pruning an item none of whose subtree nodes meets the removal
condition keeps the item unchanged and deletes nothing. -/
theorem pruneItem_noop (L : List String) (f : Option FsPath) (v : VItem)
    (h : ∀ x ∈ vitemNodes v, delCond L f x.id x.uri = false) :
    pruneItem L f v = (some v, []) := by
  cases v with
  | mk idn i l u r tg ch =>
    have hch : pruneList L f ch = (ch, []) :=
      pruneList_noop L f ch (fun x hx =>
        h x (mem_vitemNodes_of_children (VItem.mk idn i l u r tg ch) x hx))
    have hself : delCond L f i u = false := by
      have := h (VItem.mk idn i l u r tg ch)
        (self_mem_vitemNodes (VItem.mk idn i l u r tg ch))
      simpa [VItem.id, VItem.uri] using this
    simp [pruneItem, hch, hself]

/-- Pruning a collection none of whose subtree nodes meets the removal
condition is the identity and deletes nothing. -/
theorem pruneList_noop (L : List String) (f : Option FsPath)
    (l : List VItem)
    (h : ∀ x ∈ vitemNodesList l, delCond L f x.id x.uri = false) :
    pruneList L f l = (l, []) := by
  cases l with
  | nil => rfl
  | cons a as =>
    have ha : pruneItem L f a = (some a, []) :=
      pruneItem_noop L f a (fun x hx => h x (by
        simp only [vitemNodesList]
        exact List.mem_append_left _ hx))
    have has : pruneList L f as = (as, []) :=
      pruneList_noop L f as (fun x hx => h x (by
        simp only [vitemNodesList]
        exact List.mem_append_right _ hx))
    simp [pruneList, ha, has]

end

mutual

/-- The delete calls issued while pruning one item are exactly the
`(id, uri)` pairs of its subtree nodes (post-order) meeting the
removal condition. -/
theorem pruneItem_log (L : List String) (f : Option FsPath) (v : VItem) :
    (pruneItem L f v).2 =
      ((vitemNodes v).filter (fun x => delCond L f x.id x.uri)).map
        (fun x => (x.id, x.uri)) := by
  cases v with
  | mk idn i l u r tg ch =>
    simp only [pruneItem, vitemNodes]
    rw [List.filter_append, List.map_append]
    by_cases hdel : delCond L f i u = true
    · simp [hdel, pruneList_log L f ch, List.filter, VItem.id, VItem.uri]
    · have hdel' : delCond L f i u = false := by simpa using hdel
      simp [hdel', pruneList_log L f ch, List.filter, VItem.id, VItem.uri]

/-- The delete calls issued while pruning a collection are exactly the
`(id, uri)` pairs of its subtree nodes (post-order) meeting the
removal condition. -/
theorem pruneList_log (L : List String) (f : Option FsPath)
    (l : List VItem) :
    (pruneList L f l).2 =
      ((vitemNodesList l).filter (fun x => delCond L f x.id x.uri)).map
        (fun x => (x.id, x.uri)) := by
  cases l with
  | nil => rfl
  | cons a as =>
    simp only [pruneList, vitemNodesList]
    rw [List.filter_append, List.map_append, ← pruneItem_log L f a,
      ← pruneList_log L f as]

end

/-- Pruning scoped to file `A` keeps every collection member located
elsewhere, with all its own fields intact and only its children
pruned. -/
theorem pruneList_preserves_other (L : List String) (A : FsPath)
    (l : List VItem) :
    ∀ v ∈ l, v.uri ≠ some A →
      ∃ v' ∈ (pruneList L (some A) l).1,
        v'.ident = v.ident ∧ v'.id = v.id ∧ v'.label = v.label ∧
        v'.uri = v.uri ∧ v'.range = v.range ∧ v'.tags = v.tags ∧
        v'.children = (pruneList L (some A) v.children).1 := by
  induction l with
  | nil => intro v hv; cases hv
  | cons a as ih =>
    intro v hv hvuri
    rcases List.mem_cons.mp hv with h | h
    · subst h
      cases v with
      | mk idn i lb u r tg ch =>
        have hu : ¬ u = some A := by simpa [VItem.uri] using hvuri
        have hdel : delCond L (some A) i u = false := by
          simp [delCond, hu]
        refine ⟨VItem.mk idn i lb u r tg (pruneList L (some A) ch).1,
          ?_, by simp [VItem.ident, VItem.id, VItem.label, VItem.uri,
            VItem.range, VItem.tags, VItem.children]⟩
        simp [pruneList, pruneItem, hdel]
    · obtain ⟨v', hv'mem, hprops⟩ := ih v h hvuri
      refine ⟨v', ?_, hprops⟩
      simp only [pruneList]
      rcases (pruneItem L (some A) a).1 with _ | w
      · exact hv'mem
      · exact List.mem_cons_of_mem w hv'mem

/-- A subtree node of `replaceFirst p new l` is a subtree node of `l`
or of `new`. -/
theorem vitemNodesList_replaceFirst (p : VItem → Bool) (new : VItem)
    (l : List VItem) :
    ∀ x ∈ vitemNodesList (replaceFirst p new l),
      x ∈ vitemNodesList l ∨ x ∈ vitemNodes new := by
  induction l with
  | nil => intro x hx; cases hx
  | cons a as ih =>
    intro x hx
    by_cases hpa : p a = true
    · simp only [replaceFirst, if_pos hpa, vitemNodesList] at hx
      rcases List.mem_append.mp hx with hx | hx
      · exact Or.inr hx
      · exact Or.inl (by
          simp only [vitemNodesList]
          exact List.mem_append_right _ hx)
    · simp only [replaceFirst, if_neg hpa, vitemNodesList] at hx
      rcases List.mem_append.mp hx with hx | hx
      · exact Or.inl (by
          simp only [vitemNodesList]
          exact List.mem_append_left _ hx)
      · rcases ih x hx with hx | hx
        · exact Or.inl (by
            simp only [vitemNodesList]
            exact List.mem_append_right _ hx)
        · exact Or.inr hx

mutual

/-- Every subtree node of the collection after an upsert either carries
the id, uri, tags and identity of a subtree node of the old collection,
or stems from a non-swift-testing subtree class of the upserted class
(carrying that class's id and computed tags). -/
theorem upsert_nodes (n : Nat) (c : List VItem) (tc : TestClass) :
    ∀ x ∈ vitemNodesList (upsertTestItem n c tc).2,
      (∃ m ∈ vitemNodesList c,
        m.id = x.id ∧ m.uri = x.uri ∧ m.tags = x.tags ∧ m.ident = x.ident) ∨
      (∃ tc' ∈ classNodes tc, tc'.style ≠ "swift-testing" ∧
        x.id = tc'.id ∧ x.tags = itemTags tc'.style tc'.tags) := by
  cases tc with
  | mk i l s d tg loc ch =>
    intro x hx
    by_cases hs : s = "swift-testing"
    · left
      refine ⟨x, ?_, rfl, rfl, rfl, rfl⟩
      simpa [upsertTestItem, hs] using hx
    · rcases hfind : c.find? (fun item => item.id = i) with _ | e
      · simp only [upsertTestItem, if_neg hs, hfind] at hx
        rw [vitemNodesList_append] at hx
        rcases List.mem_append.mp hx with hx | hx
        · exact Or.inl ⟨x, hx, rfl, rfl, rfl, rfl⟩
        · simp only [vitemNodesList, List.append_nil] at hx
          simp only [vitemNodes] at hx
          rcases List.mem_append.mp hx with hx | hx
          · rcases upsertList_nodes (n + 1) [] ch x hx with ⟨m, hm, _⟩ | h
            · cases hm
            · right
              obtain ⟨tc', htc', hprops⟩ := h
              exact ⟨tc', mem_classNodes_of_children _ tc' htc', hprops⟩
          · right
            rw [List.mem_singleton.mp hx]
            exact ⟨TestClass.mk i l s d tg loc ch,
              self_mem_classNodes _,
              by simpa [TestClass.style] using hs,
              by simp [VItem.id, TestClass.id],
              by simp [VItem.tags, TestClass.style, TestClass.tags]⟩
      · simp only [upsertTestItem, if_neg hs, hfind] at hx
        rcases vitemNodesList_replaceFirst _ _ c x hx with hx | hx
        · exact Or.inl ⟨x, hx, rfl, rfl, rfl, rfl⟩
        · simp only [vitemNodes] at hx
          rcases List.mem_append.mp hx with hx | hx
          · rcases upsertList_nodes n e.children ch x hx with ⟨m, hm, hprops⟩ | h
            · left
              refine ⟨m, ?_, hprops⟩
              exact mem_vitemNodesList_of_mem e c
                (List.mem_of_find?_eq_some hfind) m
                (mem_vitemNodes_of_children e m hm)
            · right
              obtain ⟨tc', htc', hprops⟩ := h
              exact ⟨tc', mem_classNodes_of_children _ tc' htc', hprops⟩
          · right
            rw [List.mem_singleton.mp hx]
            exact ⟨TestClass.mk i l s d tg loc ch,
              self_mem_classNodes _,
              by simpa [TestClass.style] using hs,
              by simp [VItem.id, TestClass.id],
              by simp [VItem.tags, TestClass.style, TestClass.tags]⟩

/-- Node characterization for upserting a list of classes. -/
theorem upsertList_nodes (n : Nat) (c : List VItem) (tcs : List TestClass) :
    ∀ x ∈ vitemNodesList (upsertTestItemList n c tcs).2,
      (∃ m ∈ vitemNodesList c,
        m.id = x.id ∧ m.uri = x.uri ∧ m.tags = x.tags ∧ m.ident = x.ident) ∨
      (∃ tc' ∈ classNodesList tcs, tc'.style ≠ "swift-testing" ∧
        x.id = tc'.id ∧ x.tags = itemTags tc'.style tc'.tags) := by
  cases tcs with
  | nil =>
    intro x hx
    exact Or.inl ⟨x, hx, rfl, rfl, rfl, rfl⟩
  | cons t ts =>
    intro x hx
    simp only [upsertTestItemList] at hx
    rcases upsertList_nodes (upsertTestItem n c t).1 (upsertTestItem n c t).2
        ts x hx with ⟨m, hm, hid, huri, htags, hident⟩ | h
    · rcases upsert_nodes n c t m hm with
        ⟨m', hm', hid', huri', htags', hident'⟩ | ⟨tc', htc', hsty, hid', htags'⟩
      · exact Or.inl ⟨m', hm', hid'.trans hid, huri'.trans huri,
          htags'.trans htags, hident'.trans hident⟩
      · right
        refine ⟨tc', ?_, hsty, hid ▸ hid', htags ▸ htags'⟩
        simp only [classNodesList]
        exact List.mem_append_left _ htc'
    · right
      obtain ⟨tc', htc', hprops⟩ := h
      refine ⟨tc', ?_, hprops⟩
      simp only [classNodesList]
      exact List.mem_append_right _ htc'

end

/-- Every subtree node of the collection `updateTests` produces fails
the removal condition of the lookup built from the same snapshot:
survivors of the prune already failed it (id and uri are never changed
by an upsert), and upserted nodes carry snapshot ids, which are all in
the lookup. -/
theorem updateTests_result_nodes_not_del (ctrl : ControllerModel)
    (snap : List TestClass) (f : Option FsPath) :
    ∀ x ∈ vitemNodesList (updateTestsState ctrl snap f).items,
      delCond (incomingLookupList none snap) f x.id x.uri = false := by
  intro x hx
  simp only [updateTestsState, updateTests] at hx
  rcases upsertList_nodes ctrl.nextIdent _ snap x hx with
    ⟨m, hm, hid, huri, _, _⟩ | ⟨tc', htc', _, hid, _⟩
  · by_cases hc : ctrl.items.length ≠ 0
    · rw [if_pos hc] at hm
      have := pruneList_nodes_not_del (incomingLookupList none snap) f
        ctrl.items m hm
      rw [← hid, ← huri]
      exact this
    · rw [if_neg hc] at hm
      have hnil : ctrl.items = [] := by
        simpa using List.eq_nil_of_length_eq_zero (by omega)
      rw [hnil] at hm
      cases hm
  · have hmem : x.id ∈ incomingLookupList none snap :=
      hid ▸ lookup_contains_list snap tc' htc'
    simp [delCond, hmem]

/-- Applying `updateTests` to its own result with the same snapshot and
filter changes nothing (for per-level id-unique snapshots). -/
theorem updateTests_state_idem (snap : List TestClass) (f : Option FsPath)
    (ctrl : ControllerModel)
    (hkeys : nodupKeys (snap.map TestClass.id) = true)
    (hnd : classNodupList snap = true) :
    updateTestsState (updateTestsState ctrl snap f) snap f =
      updateTestsState ctrl snap f := by
  have hstable : stableList snap (updateTestsState ctrl snap f).items = true := by
    simp only [updateTestsState, updateTests]
    exact stableList_after_upsertList _ _ snap hkeys hnd
  have hnodes := updateTests_result_nodes_not_del ctrl snap f
  rcases hres : updateTestsState ctrl snap f with ⟨n₁, c₁⟩
  rw [hres] at hstable hnodes
  simp only at hstable hnodes
  have hprune :
      (if c₁.length ≠ 0 then
        pruneList (incomingLookupList none snap) f c₁ else (c₁, [])).1 = c₁ := by
    by_cases hc : c₁.length ≠ 0
    · rw [if_pos hc,
        pruneList_noop (incomingLookupList none snap) f c₁ hnodes]
    · rw [if_neg hc]
  show (⟨_, _⟩ : ControllerModel) = _
  simp only [updateTests, hprune]
  rw [upsertList_of_stableList n₁ c₁ snap hstable]

/-- `nodupKeys` descends to sublists. -/
theorem nodupKeys_sublist {l₁ l₂ : List String} (h : l₁.Sublist l₂)
    (hnd : nodupKeys l₂ = true) : nodupKeys l₁ = true := by
  induction h with
  | slnil => rfl
  | cons a h ih =>
    simp only [nodupKeys, Bool.and_eq_true] at hnd
    exact ih hnd.2
  | cons₂ a h ih =>
    simp only [nodupKeys, Bool.and_eq_true, Bool.not_eq_true',
      decide_eq_false_iff_not] at hnd ⊢
    exact ⟨fun hmem => hnd.1 (h.subset hmem), ih hnd.2⟩

/-- Pruning only deletes, so the surviving id sequence is a sublist of
the original one. -/
theorem pruneList_ids_sublist (L : List String) (f : Option FsPath)
    (l : List VItem) :
    ((pruneList L f l).1.map VItem.id).Sublist (l.map VItem.id) := by
  induction l with
  | nil => simp [pruneList]
  | cons a as ih =>
    cases a with
    | mk idn i lb u r tg ch =>
      by_cases hdel : delCond L f i u = true
      · simp only [pruneList, pruneItem, if_pos hdel, List.map_cons, VItem.id]
        exact ih.cons _
      · simp only [pruneList, pruneItem, if_neg hdel, List.map_cons, VItem.id]
        exact ih.cons₂ _

mutual

/-- Pruning preserves per-level id uniqueness of a surviving item. -/
theorem pruneItem_nodup (L : List String) (f : Option FsPath) (v : VItem)
    (h : itemIdsNodup v = true) :
    ∀ w, (pruneItem L f v).1 = some w → itemIdsNodup w = true := by
  cases v with
  | mk idn i lb u r tg ch =>
    intro w hw
    simp only [pruneItem] at hw
    by_cases hdel : delCond L f i u = true
    · rw [if_pos hdel] at hw
      cases hw
    · rw [if_neg hdel] at hw
      injection hw with hw
      subst hw
      simp only [itemIdsNodup, Bool.and_eq_true] at h ⊢
      exact ⟨nodupKeys_sublist (pruneList_ids_sublist L f ch) h.1,
        pruneList_nodupList L f ch h.2⟩

/-- Pruning preserves per-level id uniqueness of a collection. -/
theorem pruneList_nodupList (L : List String) (f : Option FsPath)
    (l : List VItem) (h : itemIdsNodupList l = true) :
    itemIdsNodupList (pruneList L f l).1 = true := by
  cases l with
  | nil => rfl
  | cons a as =>
    simp only [itemIdsNodupList, Bool.and_eq_true] at h
    simp only [pruneList]
    rcases ha : (pruneItem L f a).1 with _ | w
    · exact pruneList_nodupList L f as h.2
    · simp only [itemIdsNodupList, Bool.and_eq_true]
      exact ⟨pruneItem_nodup L f a h.1 w ha, pruneList_nodupList L f as h.2⟩

end

/-- Pruning preserves tree-wide id uniqueness. -/
theorem pruneList_treeNodup (L : List String) (f : Option FsPath)
    (l : List VItem) (h : treeIdsNodup l = true) :
    treeIdsNodup (pruneList L f l).1 = true := by
  simp only [treeIdsNodup, Bool.and_eq_true] at h ⊢
  exact ⟨nodupKeys_sublist (pruneList_ids_sublist L f l) h.1,
    pruneList_nodupList L f l h.2⟩

/-- Replacing the item with id `i` by another item with id `i` keeps the
id sequence. -/
theorem replaceFirst_map_id (i : String) (new : VItem) (l : List VItem)
    (hnew : new.id = i) :
    (replaceFirst (fun it => it.id = i) new l).map VItem.id =
      l.map VItem.id := by
  induction l with
  | nil => rfl
  | cons a as ih =>
    by_cases hpa : a.id = i
    · simp [replaceFirst, hpa, hnew]
    · simp [replaceFirst, hpa, ih]

/-- Per-level id uniqueness of a collection survives replacing one
element by a per-level id-unique one. -/
theorem itemIdsNodupList_replaceFirst (p : VItem → Bool) (new : VItem)
    (l : List VItem) (hl : itemIdsNodupList l = true)
    (hnew : itemIdsNodup new = true) :
    itemIdsNodupList (replaceFirst p new l) = true := by
  induction l with
  | nil => rfl
  | cons a as ih =>
    simp only [itemIdsNodupList, Bool.and_eq_true] at hl
    by_cases hpa : p a = true
    · simp only [replaceFirst, if_pos hpa, itemIdsNodupList,
        Bool.and_eq_true]
      exact ⟨hnew, hl.2⟩
    · simp only [replaceFirst, if_neg hpa, itemIdsNodupList,
        Bool.and_eq_true]
      exact ⟨hl.1, ih hl.2⟩

/-- Appending a fresh key preserves key uniqueness. -/
theorem nodupKeys_append_single (l : List String) (x : String)
    (hl : nodupKeys l = true) (hx : x ∉ l) :
    nodupKeys (l ++ [x]) = true := by
  induction l with
  | nil => simp [nodupKeys]
  | cons a as ih =>
    simp only [List.cons_append, nodupKeys, Bool.and_eq_true,
      Bool.not_eq_true', decide_eq_false_iff_not] at hl ⊢
    constructor
    · intro hmem
      rcases List.mem_append.mp hmem with hmem | hmem
      · exact hl.1 hmem
      · exact hx (List.mem_singleton.mp hmem ▸ List.mem_cons_self a as)
    · exact ih hl.2 (fun hm => hx (List.mem_cons_of_mem _ hm))

/-- Appending a per-level id-unique item preserves per-level id
uniqueness of the collection. -/
theorem itemIdsNodupList_append_single (l : List VItem) (v : VItem)
    (hl : itemIdsNodupList l = true) (hv : itemIdsNodup v = true) :
    itemIdsNodupList (l ++ [v]) = true := by
  induction l with
  | nil => simpa [itemIdsNodupList] using hv
  | cons a as ih =>
    simp only [itemIdsNodupList, Bool.and_eq_true] at hl
    simp only [List.cons_append, itemIdsNodupList, Bool.and_eq_true]
    exact ⟨hl.1, ih hl.2⟩

/-- A member of a per-level id-unique collection is itself per-level
id-unique. -/
theorem itemIdsNodup_of_mem (l : List VItem) (e : VItem) (he : e ∈ l)
    (h : itemIdsNodupList l = true) : itemIdsNodup e = true := by
  induction l with
  | nil => cases he
  | cons a as ih =>
    simp only [itemIdsNodupList, Bool.and_eq_true] at h
    rcases List.mem_cons.mp he with he | he
    · exact he ▸ h.1
    · exact ih he h.2

mutual

/-- Upserting never introduces duplicate ids at any level. -/
theorem upsert_treeNodup (n : Nat) (c : List VItem) (tc : TestClass)
    (h : treeIdsNodup c = true) :
    treeIdsNodup (upsertTestItem n c tc).2 = true := by
  cases tc with
  | mk i l s d tg loc ch =>
    by_cases hs : s = "swift-testing"
    · simpa [upsertTestItem, hs] using h
    · simp only [treeIdsNodup, Bool.and_eq_true] at h
      rcases hfind : c.find? (fun item => item.id = i) with _ | e
      · simp only [upsertTestItem, if_neg hs, hfind]
        simp only [treeIdsNodup, Bool.and_eq_true]
        have hxnot : i ∉ c.map VItem.id := by
          intro hmem
          obtain ⟨y, hy, hyid⟩ := List.mem_map.mp hmem
          exact (List.find?_eq_none.mp hfind y hy) (by simp [hyid])
        have hcreated := upsertList_treeNodup (n + 1) [] ch rfl
        constructor
        · rw [List.map_append]
          simp only [List.map_cons, List.map_nil, VItem.id]
          exact nodupKeys_append_single _ _ h.1 hxnot
        · refine itemIdsNodupList_append_single c _ h.2 ?_
          simp only [itemIdsNodup]
          simpa [treeIdsNodup] using hcreated
      · cases e with
        | mk eidn eid elb euri erng etg ech =>
          simp only [upsertTestItem, if_neg hs, hfind]
          simp only [treeIdsNodup, Bool.and_eq_true]
          have hech : itemIdsNodup
              (VItem.mk eidn eid elb euri erng etg ech) = true :=
            itemIdsNodup_of_mem c _ (List.mem_of_find?_eq_some hfind) h.2
          simp only [itemIdsNodup, Bool.and_eq_true] at hech
          have hch := upsertList_treeNodup n ech ch (by
            simp only [treeIdsNodup, Bool.and_eq_true]
            exact hech)
          constructor
          · rw [replaceFirst_map_id i _ c (by simp [VItem.id])]
            exact h.1
          · refine itemIdsNodupList_replaceFirst _ _ c h.2 ?_
            simp only [itemIdsNodup]
            simpa [treeIdsNodup] using hch

/-- Upserting a class list never introduces duplicate ids at any
level. -/
theorem upsertList_treeNodup (n : Nat) (c : List VItem)
    (tcs : List TestClass) (h : treeIdsNodup c = true) :
    treeIdsNodup (upsertTestItemList n c tcs).2 = true := by
  cases tcs with
  | nil => exact h
  | cons t ts =>
    exact upsertList_treeNodup _ _ ts (upsert_treeNodup n c t h)

end

/-- `updateTests` never introduces duplicate ids at any level. -/
theorem updateTests_treeNodup (ctrl : ControllerModel)
    (snap : List TestClass) (f : Option FsPath)
    (h : treeIdsNodup ctrl.items = true) :
    treeIdsNodup (updateTestsState ctrl snap f).items = true := by
  simp only [updateTestsState, updateTests]
  apply upsertList_treeNodup
  by_cases hc : ctrl.items.length ≠ 0
  · rw [if_pos hc]
    exact pruneList_treeNodup _ f _ h
  · rw [if_neg hc]
    exact h

/-- An upsert of a class whose id is already present updates the found
item in place: the collection size is unchanged and the item reachable
under that id keeps its identity. -/
theorem upsert_in_place (n : Nat) (c : List VItem) (tc : TestClass)
    (e : VItem) (hfind : c.find? (fun it => it.id = tc.id) = some e)
    (hs : tc.style ≠ "swift-testing") :
    (upsertTestItem n c tc).2.length = c.length ∧
    ∃ e', (upsertTestItem n c tc).2.find? (fun it => it.id = tc.id) =
        some e' ∧ e'.ident = e.ident := by
  cases tc with
  | mk i l s d tg loc ch =>
    simp only [TestClass.id] at hfind ⊢
    simp only [TestClass.style] at hs
    simp only [upsertTestItem, if_neg hs, hfind]
    constructor
    · exact replaceFirst_length _ _ c
    · exact ⟨_, replaceFirst_find?_same _ _ c e hfind (by simp [VItem.id]),
        rfl⟩

mutual

/-- Every subtree node of a prune survivor carries the id, uri, tags and
identity of a subtree node of the original item (pruning never edits
fields, it only removes nodes). -/
theorem pruneItem_nodes_sub (L : List String) (f : Option FsPath)
    (v : VItem) :
    ∀ w, (pruneItem L f v).1 = some w →
      ∀ x ∈ vitemNodes w, ∃ m ∈ vitemNodes v,
        m.id = x.id ∧ m.uri = x.uri ∧ m.tags = x.tags ∧ m.ident = x.ident := by
  cases v with
  | mk idn i lb u r tg ch =>
    intro w hw x hx
    simp only [pruneItem] at hw
    by_cases hdel : delCond L f i u = true
    · rw [if_pos hdel] at hw
      cases hw
    · rw [if_neg hdel] at hw
      injection hw with hw
      subst hw
      simp only [vitemNodes] at hx ⊢
      rcases List.mem_append.mp hx with hx | hx
      · obtain ⟨m, hm, hprops⟩ := pruneList_nodes_sub L f ch x hx
        exact ⟨m, List.mem_append_left _ hm, hprops⟩
      · rw [List.mem_singleton.mp hx]
        exact ⟨VItem.mk idn i lb u r tg ch,
          List.mem_append_right _ (List.mem_singleton.mpr rfl),
          by simp [VItem.id], by simp [VItem.uri], by simp [VItem.tags],
          by simp [VItem.ident]⟩

/-- Every subtree node of a pruned collection carries the id, uri, tags
and identity of a subtree node of the original collection. -/
theorem pruneList_nodes_sub (L : List String) (f : Option FsPath)
    (l : List VItem) :
    ∀ x ∈ vitemNodesList (pruneList L f l).1, ∃ m ∈ vitemNodesList l,
      m.id = x.id ∧ m.uri = x.uri ∧ m.tags = x.tags ∧ m.ident = x.ident := by
  cases l with
  | nil => intro x hx; cases hx
  | cons a as =>
    intro x hx
    simp only [pruneList] at hx
    rcases ha : (pruneItem L f a).1 with _ | v
    · rw [ha] at hx
      obtain ⟨m, hm, hprops⟩ := pruneList_nodes_sub L f as x hx
      refine ⟨m, ?_, hprops⟩
      simp only [vitemNodesList]
      exact List.mem_append_right _ hm
    · rw [ha] at hx
      simp only [vitemNodesList] at hx
      rcases List.mem_append.mp hx with hx | hx
      · obtain ⟨m, hm, hprops⟩ := pruneItem_nodes_sub L f a v ha x hx
        refine ⟨m, ?_, hprops⟩
        simp only [vitemNodesList]
        exact List.mem_append_left _ hm
      · obtain ⟨m, hm, hprops⟩ := pruneList_nodes_sub L f as x hx
        refine ⟨m, ?_, hprops⟩
        simp only [vitemNodesList]
        exact List.mem_append_right _ hm

end

/-- C5: A reconciliation pass scoped to file `A` issues `delete` calls
exactly for the existing subtree nodes whose id is absent from the
incoming lookup and whose uri equals `A` (in traversal order); every
delete call targets file `A`; and every existing top-level item located
in another file survives the pruning phase with all of its own fields
unchanged (only its children are pruned). -/
theorem updateTests_scoped_prune (ctrl : ControllerModel)
    (snap : List TestClass) (A : FsPath) :
    (updateTests ctrl snap (some A)).2 =
      ((vitemNodesList ctrl.items).filter
        (fun x => delCond (incomingLookupList none snap) (some A)
          x.id x.uri)).map (fun x => (x.id, x.uri)) ∧
    (∀ p ∈ (updateTests ctrl snap (some A)).2, p.2 = some A) ∧
    (∀ v ∈ ctrl.items, v.uri ≠ some A →
      ∃ v' ∈ (pruneList (incomingLookupList none snap) (some A)
          ctrl.items).1,
        v'.ident = v.ident ∧ v'.id = v.id ∧ v'.label = v.label ∧
        v'.uri = v.uri ∧ v'.range = v.range ∧ v'.tags = v.tags ∧
        v'.children = (pruneList (incomingLookupList none snap) (some A)
          v.children).1) := by
  have hlog : (updateTests ctrl snap (some A)).2 =
      ((vitemNodesList ctrl.items).filter
        (fun x => delCond (incomingLookupList none snap) (some A)
          x.id x.uri)).map (fun x => (x.id, x.uri)) := by
    simp only [updateTests]
    by_cases hc : ctrl.items.length ≠ 0
    · rw [if_pos hc]
      exact pruneList_log _ _ ctrl.items
    · rw [if_neg hc]
      have hnil : ctrl.items = [] := by
        simpa using List.eq_nil_of_length_eq_zero (by omega)
      rw [hnil]
      rfl
  refine ⟨hlog, ?_, pruneList_preserves_other _ A ctrl.items⟩
  intro p hp
  rw [hlog] at hp
  obtain ⟨x, hx, rfl⟩ := List.mem_map.mp hp
  have hdel := (List.mem_filter.mp hx).2
  simp only [delCond, Bool.and_eq_true, decide_eq_true_eq] at hdel
  exact hdel.2

/-- C5 witness: with an empty snapshot and filter file `A`, an item in
file `B` survives the prune with its fields intact. -/
theorem updateTests_scoped_prune_witness :
    (VItem.mk 2 "nb" "nb" (some ["B"]) none [] []).uri ≠ some ["A"] ∧
    ∃ v' ∈ (pruneList (incomingLookupList none []) (some ["A"])
        [VItem.mk 1 "pa" "pa" (some ["A"]) none [] [],
         VItem.mk 2 "nb" "nb" (some ["B"]) none [] []]).1,
      v'.ident = (VItem.mk 2 "nb" "nb" (some ["B"]) none [] []).ident ∧
      v'.id = (VItem.mk 2 "nb" "nb" (some ["B"]) none [] []).id ∧
      v'.label = (VItem.mk 2 "nb" "nb" (some ["B"]) none [] []).label ∧
      v'.uri = (VItem.mk 2 "nb" "nb" (some ["B"]) none [] []).uri ∧
      v'.range = (VItem.mk 2 "nb" "nb" (some ["B"]) none [] []).range ∧
      v'.tags = (VItem.mk 2 "nb" "nb" (some ["B"]) none [] []).tags ∧
      v'.children = (pruneList (incomingLookupList none []) (some ["A"])
        (VItem.mk 2 "nb" "nb" (some ["B"]) none [] []).children).1 :=
  ⟨by decide,
    (updateTests_scoped_prune
      ⟨10, [VItem.mk 1 "pa" "pa" (some ["A"]) none [] [],
            VItem.mk 2 "nb" "nb" (some ["B"]) none [] []]⟩ [] ["A"]).2.2
      (VItem.mk 2 "nb" "nb" (some ["B"]) none [] [])
      (List.mem_cons_of_mem _ (List.mem_cons_self _ _)) (by decide)⟩

/-- C6: For a snapshot with per-level unique ids (the reconciler
contract), applying `updateTests` twice with the same snapshot and
filter yields the identical controller state; no duplicate ids are ever
created at any level; and an item whose id already exists in the target
collection is updated in place — same collection size, same identity —
rather than replaced. -/
theorem updateTests_idempotent (snap : List TestClass) (f : Option FsPath)
    (ctrl : ControllerModel) (h : snapNodup snap = true) :
    updateTestsState (updateTestsState ctrl snap f) snap f =
      updateTestsState ctrl snap f ∧
    (treeIdsNodup ctrl.items = true →
      treeIdsNodup (updateTestsState ctrl snap f).items = true) ∧
    (∀ (n : Nat) (c : List VItem) (tc : TestClass) (e : VItem),
      c.find? (fun it => it.id = tc.id) = some e →
      tc.style ≠ "swift-testing" →
      (upsertTestItem n c tc).2.length = c.length ∧
      ∃ e', (upsertTestItem n c tc).2.find? (fun it => it.id = tc.id) =
          some e' ∧ e'.ident = e.ident) := by
  simp only [snapNodup, Bool.and_eq_true] at h
  exact ⟨updateTests_state_idem snap f ctrl h.1 h.2,
    fun hn => updateTests_treeNodup ctrl snap f hn,
    fun n c tc e hf hs => upsert_in_place n c tc e hf hs⟩

/-- C6 witness: a concrete one-class snapshot applied twice to the empty
controller yields the same state as applying it once. -/
theorem updateTests_idempotent_witness :
    snapNodup [TestClass.mk "T.C/t" "t" "XCTest" false [] none []] = true ∧
    updateTestsState (updateTestsState ⟨0, []⟩
        [TestClass.mk "T.C/t" "t" "XCTest" false [] none []] none)
        [TestClass.mk "T.C/t" "t" "XCTest" false [] none []] none =
      updateTestsState ⟨0, []⟩
        [TestClass.mk "T.C/t" "t" "XCTest" false [] none []] none :=
  ⟨by decide,
    (updateTests_idempotent
      [TestClass.mk "T.C/t" "t" "XCTest" false [] none []] none ⟨0, []⟩
      (by decide)).1⟩

/-- C10: Upserting an incoming item of style "swift-testing" returns
immediately, leaving the collection and the identity counter untouched;
consequently no reconciliation pass ever places a swift-testing-tagged
item into the catalog (every item the upsert writes carries its style
as the head tag, and that style is never "swift-testing"). -/
theorem swiftTesting_gate :
    (∀ (next : Nat) (c : List VItem) (tc : TestClass),
      tc.style = "swift-testing" → upsertTestItem next c tc = (next, c)) ∧
    (∀ (ctrl : ControllerModel) (snap : List TestClass) (f : Option FsPath),
      (∀ x ∈ vitemNodesList ctrl.items,
        x.tags.head? ≠ some "swift-testing") →
      ∀ x ∈ vitemNodesList (updateTestsState ctrl snap f).items,
        x.tags.head? ≠ some "swift-testing") := by
  constructor
  · intro next c tc hs
    cases tc with
    | mk i l s d tg loc ch =>
      simp only [TestClass.style] at hs
      simp [upsertTestItem, hs]
  · intro ctrl snap f hprev x hx
    simp only [updateTestsState, updateTests] at hx
    rcases upsertList_nodes ctrl.nextIdent _ snap x hx with
      ⟨m, hm, _, _, htags, _⟩ | ⟨tc', _, hsty, _, htags⟩
    · have hmem : ∃ m' ∈ vitemNodesList ctrl.items,
          m'.tags = m.tags := by
        by_cases hc : ctrl.items.length ≠ 0
        · rw [if_pos hc] at hm
          obtain ⟨m', hm', _, _, ht, _⟩ :=
            pruneList_nodes_sub _ f ctrl.items m hm
          exact ⟨m', hm', ht⟩
        · rw [if_neg hc] at hm
          have hnil : ctrl.items = [] := by
            simpa using List.eq_nil_of_length_eq_zero (by omega)
          rw [hnil] at hm
          cases hm
      obtain ⟨m', hm', ht⟩ := hmem
      rw [← htags, ← ht]
      exact hprev m' hm'
    · rw [htags]
      simp only [itemTags, List.head?_cons, ne_eq, Option.some.injEq]
      exact hsty

/-- C10 witness: upserting a concrete swift-testing item into the empty
collection is a no-op. -/
theorem swiftTesting_gate_witness :
    (TestClass.mk "S/t()" "t" "swift-testing" false [] none []).style =
      "swift-testing" ∧
    upsertTestItem 5 []
      (TestClass.mk "S/t()" "t" "swift-testing" false [] none []) =
      (5, []) :=
  ⟨rfl, swiftTesting_gate.1 5 []
    (TestClass.mk "S/t()" "t" "swift-testing" false [] none []) rfl⟩

/-- C8 witness: on a concrete package, the filename-scoped containment
check resolves the unqualified id to the item whose target contains the
hinted file. -/
theorem nonDarwin_getIndex_spec_witness :
    [RunItem.mk "Suite/testFoo" "testFoo"
        (some (RunItem.mk "Suite" "Suite"
          (some (RunItem.mk "TT" "TT" none))))].findIdx?
      (fun it => isTestWithFilenameInTarget
        ⟨["pkg"], ⟨[⟨"TT", ["Tests", "TT"], [["f.swift"]], "test"⟩],
          fun _ => none⟩⟩
        "Suite/testFoo" ["pkg", "Tests", "TT", "f.swift"] it) = some 0 ∧
    nonDarwinGetIndex
      ⟨["pkg"], ⟨[⟨"TT", ["Tests", "TT"], [["f.swift"]], "test"⟩],
        fun _ => none⟩⟩
      [RunItem.mk "Suite/testFoo" "testFoo"
        (some (RunItem.mk "Suite" "Suite"
          (some (RunItem.mk "TT" "TT" none))))]
      "Suite/testFoo" (some ["pkg", "Tests", "TT", "f.swift"]) =
      ((0 : Nat) : Int) :=
  ⟨by decide,
    (nonDarwin_getIndex_spec
      ⟨["pkg"], ⟨[⟨"TT", ["Tests", "TT"], [["f.swift"]], "test"⟩],
        fun _ => none⟩⟩
      [RunItem.mk "Suite/testFoo" "testFoo"
        (some (RunItem.mk "Suite" "Suite"
          (some (RunItem.mk "TT" "TT" none))))]
      "Suite/testFoo").1 ["pkg", "Tests", "TT", "f.swift"] 0 (by decide)⟩

end VSCodeSwift
